import Mathlib

/-!
Verification of the SketchRNN training code (sketch_rnn/model.py,
sketch_rnn/lstm.py, sketch_rnn/trainer.py) against its specification.

Tensors are modelled as (nested) lists of exact scalars: rationals where a
claim is a pure arithmetic identity, reals where `exp`, `log`, `sqrt` or
`tanh` enter.  `torch.mean` of a tensor is the sum of all entries divided by
the number of entries; elementwise tensor operations become `List.zipWith`
and `List.map`; in-place methods become explicit state passing.
-/

namespace SketchRNN

/-- `torch.mean` over all entries of a tensor, given here as the flat list of
its entries: the sum divided by the entry count. -/
def tmean {K : Type*} [DivisionRing K] (l : List K) : K := l.sum / l.length

/-- Elementwise product `a * b` of two 2-D tensors. -/
def emul2 {K : Type*} [Mul K] (a b : List (List K)) : List (List K) :=
  List.zipWith (List.zipWith (· * ·)) a b

/-- Elementwise product `a * b` of two 3-D tensors. -/
def emul3 {K : Type*} [Mul K] (a b : List (List (List K))) : List (List (List K)) :=
  List.zipWith (List.zipWith (List.zipWith (· * ·))) a b

/-- The fourth return value of `Trainer.step` (trainer.py lines 217-219, 253):
`data = batch[0].to(self.device).transpose(0, 1)` followed by
`batch_items = len(data)`.  `batch[0]` has shape `[batch_size, seq_len, 5]`
(a list of sequences, each a list of 5-feature steps); `transpose(0, 1)`
swaps the two leading axes and `len` is the size of the leading axis of the
result. -/
def stepBatchItems (batch0 : List (List (List ℚ))) : ℕ :=
  batch0.transpose.length

/-- The pen term of `ReconstructionLoss.forward` (model.py line 223):
`loss_pen = -torch.mean(target[:, :, 2:] * q_logits)`.
`target` has shape `[seq_len, batch_size, 5]` and `q_logits` has shape
`[seq_len, batch_size, 3]`; `target[:, :, 2:]` drops the two offset features
of every step, keeping the three pen bits. -/
def lossPen (target qLogits : List (List (List ℚ))) : ℚ :=
  -tmean (emul3 (target.map (fun r => r.map (fun v => v.drop 2))) qLogits).flatten.flatten

/-- The sum over every position and pen class of `target_pk * log_qk`, the
quantity the specification says the pen loss averages. -/
def penTotal (target qLogits : List (List (List ℚ))) : ℚ :=
  (emul3 (target.map (fun r => r.map (fun v => v.drop 2))) qLogits).flatten.flatten.sum

/-- The stroke term of `ReconstructionLoss.forward` (model.py line 220):
`loss_stroke = -torch.mean(mask * torch.log(1e-5 + probs))`.  `mask` and
`probs` have shape `[seq_len, batch_size]`; `probs` is the tensor of
softmax(pi)-weighted mixture densities computed at line 211, whose values
enter the loss only through this formula, so it is taken as an argument. -/
noncomputable def lossStroke (mask probs : List (List ℝ)) : ℝ :=
  -tmean (emul2 mask (probs.map (fun r => r.map (fun p => Real.log (1e-5 + p))))).flatten

/-- The sum over every position of `mask * log(1e-5 + p)`, the quantity the
specification says the stroke loss averages. -/
noncomputable def strokeTotal (mask probs : List (List ℝ)) : ℝ :=
  (emul2 mask (probs.map (fun r => r.map (fun p => Real.log (1e-5 + p))))).flatten.sum

/-! ### List helper lemmas -/

theorem mem_zipWith_ex {α β γ : Type*} {f : α → β → γ} {as : List α} {bs : List β} {c : γ}
    (h : c ∈ List.zipWith f as bs) : ∃ a ∈ as, ∃ b ∈ bs, c = f a b := by
  induction as generalizing bs with
  | nil => simp at h
  | cons a as ih =>
    cases bs with
    | nil => simp at h
    | cons b bs =>
      simp only [List.zipWith_cons_cons, List.mem_cons] at h
      rcases h with h | h
      · exact ⟨a, by simp, b, by simp, h⟩
      · obtain ⟨x, hx, y, hy, rfl⟩ := ih h
        exact ⟨x, by simp [hx], y, by simp [hy], rfl⟩

theorem length_flatten_rect {α : Type*} {l : List (List α)} {n : ℕ}
    (h : ∀ r ∈ l, r.length = n) : l.flatten.length = l.length * n := by
  induction l with
  | nil => simp
  | cons r l ih =>
    have hr : r.length = n := h r (by simp)
    have hl : l.flatten.length = l.length * n := ih fun s hs => h s (by simp [hs])
    simp only [List.flatten_cons, List.length_append, List.length_cons, hr, hl]
    ring

/-! ### Claims on `Trainer.step` and `ReconstructionLoss` -/

/-- Claim C1: the fourth component returned by `Trainer.step` is `len(data)`
computed after the transpose to `[seq_len, batch_size, 5]`, so on a batch of 2
sequences padded to length 3 it returns the padded sequence length 3, not the
number of sequences 2.  The variable is named `batch_items` and is used in
`validate_one_epoch` as the per-batch item count for weighted averaging, so
the code contradicts its own naming and the spec sentence. -/
theorem step_batch_items_is_padded_length :
    stepBatchItems [[[0, 0, 1, 0, 0], [0, 0, 1, 0, 0], [0, 0, 1, 0, 0]],
                    [[0, 0, 1, 0, 0], [0, 0, 1, 0, 0], [0, 0, 1, 0, 0]]] = 3 ∧
    ([[[0, 0, 1, 0, 0], [0, 0, 1, 0, 0], [0, 0, 1, 0, 0]],
      [[0, 0, 1, 0, 0], [0, 0, 1, 0, 0], [0, 0, 1, 0, 0]]] :
        List (List (List ℚ))).length = 2 := by
  constructor
  · decide
  · decide

/-- Claim C2, counterexample: on a single position (`seq_len = batch = 1`)
with one-hot pen target `(1, 0, 0)` and pen log-probabilities `(-1, -2, -3)`,
the claimed value `-(sum over the three classes) / (seq_len * batch)` is `1`,
but `lossPen` (which is `-torch.mean` over all `seq_len * batch * 3` entries)
returns `1/3`. -/
theorem loss_pen_counterexample :
    lossPen [[[0, 0, 1, 0, 0]]] [[[-1, -2, -3]]] ≠
      -(((1 : ℚ) * (-1) + 0 * (-2) + 0 * (-3)) / (1 * 1)) := by
  norm_num [lossPen, tmean, emul3]

/-- Claim C2, amended: for every padded target of shape
`[seq_len, batch, 5]` and pen log-probability tensor of shape
`[seq_len, batch, 3]`, the pen loss equals the negative of the total sum of
`target_pk * log_qk` divided by `seq_len * batch * 3`: `torch.mean` averages
over the pen-class axis as well. -/
theorem loss_pen_mean_over_all_entries (target qLogits : List (List (List ℚ)))
    (S B : ℕ) (hS : target.length = S) (hqS : qLogits.length = S)
    (hB : ∀ r ∈ target, r.length = B) (hqB : ∀ r ∈ qLogits, r.length = B)
    (h5 : ∀ r ∈ target, ∀ v ∈ r, v.length = 5)
    (h3 : ∀ r ∈ qLogits, ∀ v ∈ r, v.length = 3) :
    lossPen target qLogits = -(penTotal target qLogits / (S * B * 3)) := by
  set P : List (List (List ℚ)) :=
    emul3 (target.map (fun r => r.map (fun v => v.drop 2))) qLogits with hP
  have hPlen : P.length = S := by
    simp [hP, emul3, List.length_zipWith, hS, hqS]
  have hProws : ∀ r ∈ P, r.length = B := by
    intro r hr
    obtain ⟨a, ha, b, hb, rfl⟩ := mem_zipWith_ex hr
    obtain ⟨t, ht, rfl⟩ := List.mem_map.mp ha
    have hta : (t.map (fun v => v.drop 2)).length = B := by simp [hB t ht]
    simp [List.length_zipWith, hta, hqB b hb]
  have hPinner : ∀ v ∈ P.flatten, v.length = 3 := by
    intro v hv
    obtain ⟨r, hr, hvr⟩ := List.mem_flatten.mp hv
    obtain ⟨a, ha, b, hb, rfl⟩ := mem_zipWith_ex hr
    obtain ⟨t, ht, rfl⟩ := List.mem_map.mp ha
    obtain ⟨x, hx, y, hy, rfl⟩ := mem_zipWith_ex hvr
    obtain ⟨tv, htv, rfl⟩ := List.mem_map.mp hx
    have hxl : (tv.drop 2).length = 3 := by
      simp [h5 t ht tv htv]
    simp [List.length_zipWith, hxl, h3 b hb y hy]
  have hflat1 : P.flatten.length = S * B := by
    rw [length_flatten_rect hProws, hPlen]
  have hflat2 : P.flatten.flatten.length = S * B * 3 := by
    rw [length_flatten_rect hPinner, hflat1]
  rw [lossPen, penTotal, tmean, ← hP, hflat2]
  push_cast
  ring

/-- Witness for the amended claim C2 at the counterexample input. -/
theorem loss_pen_mean_over_all_entries_witness :
    lossPen [[[0, 0, 1, 0, 0]]] [[[-1, -2, -3]]] =
      -(penTotal [[[0, 0, 1, 0, 0]]] [[[-1, -2, -3]]] / (1 * 1 * 3)) :=
  loss_pen_mean_over_all_entries _ _ 1 1 rfl rfl (by decide) (by decide)
    (by decide) (by decide)

/-- Claim C3: the stroke loss is the negative total of `mask * log(1e-5 + p)`
divided by the full padded grid size `N_max * batch` (not by the count of
valid positions); consequently two batches holding the same single valid step
(mask `1`, density `p = 0`) but padded to lengths 1 and 2 get different
stroke losses. -/
theorem loss_stroke_mean_over_padded_grid (mask probs : List (List ℝ))
    (N B : ℕ) (hN : mask.length = N) (hpN : probs.length = N)
    (hB : ∀ r ∈ mask, r.length = B) (hpB : ∀ r ∈ probs, r.length = B) :
    lossStroke mask probs = -(strokeTotal mask probs / (N * B)) ∧
    lossStroke [[1]] [[0]] ≠ lossStroke [[1], [0]] [[0], [0]] := by
  constructor
  · set P : List (List ℝ) :=
      emul2 mask (probs.map (fun r => r.map (fun p => Real.log (1e-5 + p)))) with hP
    have hPlen : P.length = N := by
      simp [hP, emul2, List.length_zipWith, hN, hpN]
    have hProws : ∀ r ∈ P, r.length = B := by
      intro r hr
      obtain ⟨a, ha, b, hb, rfl⟩ := mem_zipWith_ex hr
      obtain ⟨pr, hpr, rfl⟩ := List.mem_map.mp hb
      have : (pr.map (fun p => Real.log (1e-5 + p))).length = B := by
        simp [hpB pr hpr]
      simp [List.length_zipWith, hB a ha, this]
    have hflat : P.flatten.length = N * B := by
      rw [length_flatten_rect hProws, hPlen]
    rw [lossStroke, strokeTotal, tmean, ← hP, hflat]
    push_cast
    ring
  · have h0 : Real.log ((1e-5 : ℝ) + 0) ≠ 0 := by
      intro h
      rcases Real.log_eq_zero.mp h with h | h | h <;> norm_num at h
    simp only [lossStroke, emul2, tmean, List.map_cons, List.map_nil,
      List.zipWith_cons_cons, List.zipWith_nil_right, List.zipWith_nil_left,
      List.flatten, List.sum_cons, List.sum_nil, List.length_cons,
      List.length_nil, List.append_nil, List.sum_append, List.length_append,
      List.cons_append, List.nil_append]
    intro h
    apply h0
    push_cast at h
    nlinarith [h]

/-- Witness for claim C3 on a one-position batch. -/
theorem loss_stroke_mean_over_padded_grid_witness :
    lossStroke [[1]] [[0]] = -(strokeTotal [[1]] [[0]] / (1 * 1)) ∧
    lossStroke [[1]] [[0]] ≠ lossStroke [[1], [0]] [[0], [0]] := by
  exact_mod_cast loss_stroke_mean_over_padded_grid [[1]] [[0]] 1 1 rfl rfl
    (by simp) (by simp)

/-! ### `BivariateGaussianMixture` (model.py lines 121-186) -/

/-- `torch.clamp_min x m`: clamp `x` to the floor `m`. -/
def clampMin (x m : ℝ) : ℝ := max x m

/-- `torch.clamp x lo hi`: clamp `x` into `[lo, hi]`. -/
def clamp (x lo hi : ℝ) : ℝ := min (max x lo) hi

/-- The six stored parameter tensors of `BivariateGaussianMixture`
(model.py lines 131-138); each is an elementwise tensor, modelled flat. -/
structure BivariateGaussianMixture where
  pi_logits : List ℝ
  mu_x : List ℝ
  mu_y : List ℝ
  sigma_x : List ℝ
  sigma_y : List ℝ
  rho_xy : List ℝ

/-- `set_temperature` (model.py lines 145-154): the in-place updates
`pi_logits /= temperature`, `sigma_x *= sqrt(temperature)`,
`sigma_y *= sqrt(temperature)`, modelled as a state transformer. -/
noncomputable def set_temperature (m : BivariateGaussianMixture)
    (temperature : ℝ) : BivariateGaussianMixture :=
  { m with
    pi_logits := m.pi_logits.map (· / temperature)
    sigma_x := m.sigma_x.map (· * Real.sqrt temperature)
    sigma_y := m.sigma_y.map (· * Real.sqrt temperature) }

/-- One per-component 2x2 covariance matrix
`[[sx*sx, r*sx*sy], [r*sx*sy, sy*sy]]` as stacked at model.py lines 165-169,
from the already clamped scalars at that component. -/
def covMatrix (sx sy r : ℝ) : Matrix (Fin 2) (Fin 2) ℝ :=
  !![sx * sx, r * sx * sy; r * sx * sy, sy * sy]

/-- The data of the pair of distributions built by `get_distribution`: the
per-component means, the per-component covariance matrices, and the logits of
the categorical distribution. -/
structure Distributions where
  mean : List (ℝ × ℝ)
  cov : List (Matrix (Fin 2) (Fin 2) ℝ)
  cat_logits : List ℝ

/-- `get_distribution` (model.py lines 156-186): clamps `sigma_x`, `sigma_y`
to the floor `1e-5` and `rho_xy` into `[-1 + 1e-5, 1 - 1e-5]` on derived
tensors (`torch.clamp_min` and `torch.clamp` are out-of-place), stacks means
and covariance matrices, and returns the distributions together with the
post-call state of the mixture object. -/
def get_distribution (m : BivariateGaussianMixture) :
    Distributions × BivariateGaussianMixture :=
  let sigma_x := m.sigma_x.map (fun x => clampMin x 1e-5)
  let sigma_y := m.sigma_y.map (fun x => clampMin x 1e-5)
  let rho_xy := m.rho_xy.map (fun x => clamp x (-1 + 1e-5) (1 - 1e-5))
  (⟨m.mu_x.zip m.mu_y, List.zipWith3 covMatrix sigma_x sigma_y rho_xy,
    m.pi_logits⟩, m)

theorem mem_zipWith3_ex {α β γ δ : Type*} {f : α → β → γ → δ}
    {as : List α} {bs : List β} {cs : List γ} {d : δ}
    (h : d ∈ List.zipWith3 f as bs cs) :
    ∃ a ∈ as, ∃ b ∈ bs, ∃ c ∈ cs, d = f a b c := by
  induction as generalizing bs cs with
  | nil => simp [List.zipWith3] at h
  | cons a as ih =>
    cases bs with
    | nil => simp [List.zipWith3] at h
    | cons b bs =>
      cases cs with
      | nil => simp [List.zipWith3] at h
      | cons c cs =>
        simp only [List.zipWith3, List.mem_cons] at h
        rcases h with h | h
        · exact ⟨a, by simp, b, by simp, c, by simp, h⟩
        · obtain ⟨x, hx, y, hy, z, hz, rfl⟩ := ih h
          exact ⟨x, by simp [hx], y, by simp [hy], z, by simp [hz], rfl⟩

theorem covMatrix_symm (sx sy r : ℝ) :
    (covMatrix sx sy r).transpose = covMatrix sx sy r := by
  ext i j
  fin_cases i <;> fin_cases j <;> simp [covMatrix, Matrix.transpose_apply]

theorem covMatrix_pos_of_bounds {sx sy r : ℝ} (hsx : 0 < sx) (hsy : 0 < sy)
    (hr1 : -1 < r) (hr2 : r < 1) :
    0 < covMatrix sx sy r 0 0 ∧ 0 < covMatrix sx sy r 1 1 ∧
    0 < (covMatrix sx sy r).det := by
  refine ⟨by simp [covMatrix]; positivity, by simp [covMatrix]; positivity, ?_⟩
  rw [covMatrix, Matrix.det_fin_two_of]
  have key : sx * sx * (sy * sy) - r * sx * sy * (r * sx * sy)
      = (sx * sy) ^ 2 * ((1 - r) * (1 + r)) := by ring
  rw [key]
  have h1 : (0 : ℝ) < (sx * sy) ^ 2 := by positivity
  have h2 : (0 : ℝ) < (1 - r) * (1 + r) :=
    mul_pos (by linarith) (by linarith)
  exact mul_pos h1 h2

/-- Claim C4: for every stored parameter tensors, including sigma entries at
or below zero and rho entries at exactly 1 or -1, every per-component
covariance matrix built inside `get_distribution` is symmetric with strictly
positive diagonal and strictly positive determinant. -/
theorem get_distribution_cov_pos_def (m : BivariateGaussianMixture)
    (C : Matrix (Fin 2) (Fin 2) ℝ) (hC : C ∈ (get_distribution m).1.cov) :
    C.transpose = C ∧ 0 < C 0 0 ∧ 0 < C 1 1 ∧ 0 < C.det := by
  simp only [get_distribution] at hC
  obtain ⟨sx, hsx, sy, hsy, r, hr, rfl⟩ := mem_zipWith3_ex hC
  obtain ⟨x, _, rfl⟩ := List.mem_map.mp hsx
  obtain ⟨y, _, rfl⟩ := List.mem_map.mp hsy
  obtain ⟨z, _, rfl⟩ := List.mem_map.mp hr
  have hx : (0 : ℝ) < clampMin x 1e-5 :=
    lt_of_lt_of_le (by norm_num) (le_max_right _ _)
  have hy : (0 : ℝ) < clampMin y 1e-5 :=
    lt_of_lt_of_le (by norm_num) (le_max_right _ _)
  have hz1 : -1 < clamp z (-1 + 1e-5) (1 - 1e-5) := by
    have : (-1 + 1e-5 : ℝ) ≤ min (max z (-1 + 1e-5)) (1 - 1e-5) :=
      le_min (le_trans (le_refl _) (le_max_right _ _)) (by norm_num)
    have h : (-1 : ℝ) < -1 + 1e-5 := by norm_num
    exact lt_of_lt_of_le h this
  have hz2 : clamp z (-1 + 1e-5) (1 - 1e-5) < 1 :=
    lt_of_le_of_lt (min_le_right _ _) (by norm_num)
  obtain ⟨hd0, hd1, hdet⟩ := covMatrix_pos_of_bounds hx hy hz1 hz2
  exact ⟨covMatrix_symm _ _ _, hd0, hd1, hdet⟩

/-- Witness for claim C4: a one-component mixture with stored `sigma_x = -1`,
`sigma_y = 0` and raw `rho_xy = 1` (the boundary case). -/
theorem get_distribution_cov_pos_def_witness :
    (covMatrix (clampMin (-1) 1e-5) (clampMin 0 1e-5)
        (clamp 1 (-1 + 1e-5) (1 - 1e-5))).transpose =
      covMatrix (clampMin (-1) 1e-5) (clampMin 0 1e-5)
        (clamp 1 (-1 + 1e-5) (1 - 1e-5)) ∧
    0 < covMatrix (clampMin (-1) 1e-5) (clampMin 0 1e-5)
        (clamp 1 (-1 + 1e-5) (1 - 1e-5)) 0 0 ∧
    0 < covMatrix (clampMin (-1) 1e-5) (clampMin 0 1e-5)
        (clamp 1 (-1 + 1e-5) (1 - 1e-5)) 1 1 ∧
    0 < (covMatrix (clampMin (-1) 1e-5) (clampMin 0 1e-5)
        (clamp 1 (-1 + 1e-5) (1 - 1e-5))).det :=
  get_distribution_cov_pos_def ⟨[0], [0], [0], [-1], [0], [1]⟩ _
    (by simp [get_distribution, List.zipWith3])

/-- Claim C7: `set_temperature` with temperature 1 is the identity on the
stored parameters: dividing the pi logits by 1 and multiplying both sigmas by
`sqrt 1 = 1` changes nothing. -/
theorem set_temperature_one_is_identity (m : BivariateGaussianMixture) :
    set_temperature m 1 = m := by
  cases m
  simp [set_temperature, Real.sqrt_one]

/-- Claim C9: `get_distribution` does not modify the mixture object: the
clamps act on derived tensors, and the post-call state equals the pre-call
state. -/
theorem get_distribution_preserves_state (m : BivariateGaussianMixture) :
    (get_distribution m).2 = m := rfl

/-- Claim C10: for every temperature above zero, `set_temperature` leaves the
stored `mu_x`, `mu_y` and `rho_xy` unchanged. -/
theorem set_temperature_frame (m : BivariateGaussianMixture)
    (temperature : ℝ) (h : 0 < temperature) :
    (set_temperature m temperature).mu_x = m.mu_x ∧
    (set_temperature m temperature).mu_y = m.mu_y ∧
    (set_temperature m temperature).rho_xy = m.rho_xy :=
  ⟨rfl, rfl, rfl⟩

/-- Witness for claim C10 at temperature 4. -/
theorem set_temperature_frame_witness :
    (set_temperature ⟨[1], [2], [3], [4], [5], [6]⟩ 4).mu_x = [2] ∧
    (set_temperature ⟨[1], [2], [3], [4], [5], [6]⟩ 4).mu_y = [3] ∧
    (set_temperature ⟨[1], [2], [3], [4], [5], [6]⟩ 4).rho_xy = [6] :=
  set_temperature_frame ⟨[1], [2], [3], [4], [5], [6]⟩ 4 (by norm_num)

/-! ### `LSTMCell` (lstm.py lines 121-153) -/

/-- `torch.sigmoid`. -/
noncomputable def sigmoid (x : ℝ) : ℝ := 1 / (1 + Real.exp (-x))

/-- The parameters of `LSTMCell` (lstm.py lines 123-130): `weight_ih` of
shape `[4*hidden_size, input_size]`, `weight_hh` of shape
`[4*hidden_size, hidden_size]`, and the two bias vectors. -/
structure LSTMCell (inputSize hiddenSize : ℕ) where
  weight_ih : Fin (4 * hiddenSize) → Fin inputSize → ℝ
  weight_hh : Fin (4 * hiddenSize) → Fin hiddenSize → ℝ
  bias_ih : Fin (4 * hiddenSize) → ℝ
  bias_hh : Fin (4 * hiddenSize) → ℝ

/-- Entry `(b, k)` of the pre-activation gates
`mm(input, weight_ih.t()) + bias_ih + mm(hx, weight_hh.t()) + bias_hh`
(lstm.py lines 137-142). -/
def LSTMCell.gatesPre {I H : ℕ} (cell : LSTMCell I H) {B : ℕ}
    (input : Fin B → Fin I → ℝ) (hx : Fin B → Fin H → ℝ)
    (b : Fin B) (k : Fin (4 * H)) : ℝ :=
  (∑ i, input b i * cell.weight_ih k i) + cell.bias_ih k
    + (∑ i, hx b i * cell.weight_hh k i) + cell.bias_hh k

/-- `LSTMCell.forward` (lstm.py lines 133-153): `gates.chunk(4, 1)` takes the
four consecutive blocks of `hidden_size` columns as the in-, forget-, cell-
and out-gates; the new memory is `forgetgate * cx + ingate * cellgate` and
the new hidden is `outgate * tanh(memory)`; the return value is
`(hy, (hy, cy))`. -/
noncomputable def LSTMCell.forward {I H B : ℕ} (cell : LSTMCell I H)
    (input : Fin B → Fin I → ℝ)
    (state : (Fin B → Fin H → ℝ) × (Fin B → Fin H → ℝ)) :
    (Fin B → Fin H → ℝ) × ((Fin B → Fin H → ℝ) × (Fin B → Fin H → ℝ)) :=
  let hx := state.1
  let cx := state.2
  let gates := cell.gatesPre input hx
  let ingate := fun b (j : Fin H) =>
    sigmoid (gates b ⟨0 * H + j.val, by have := j.isLt; omega⟩)
  let forgetgate := fun b (j : Fin H) =>
    sigmoid (gates b ⟨1 * H + j.val, by have := j.isLt; omega⟩)
  let cellgate := fun b (j : Fin H) =>
    Real.tanh (gates b ⟨2 * H + j.val, by have := j.isLt; omega⟩)
  let outgate := fun b (j : Fin H) =>
    sigmoid (gates b ⟨3 * H + j.val, by have := j.isLt; omega⟩)
  let cy := fun b j => forgetgate b j * cx b j + ingate b j * cellgate b j
  let hy := fun b j => outgate b j * Real.tanh (cy b j)
  (hy, (hy, cy))

theorem sigmoid_pos (x : ℝ) : 0 < sigmoid x := by
  unfold sigmoid
  positivity

theorem sigmoid_lt_one (x : ℝ) : sigmoid x < 1 := by
  unfold sigmoid
  rw [div_lt_one (by positivity)]
  have := Real.exp_pos (-x)
  linarith

theorem tanh_lt_one_real (x : ℝ) : Real.tanh x < 1 := by
  rw [Real.tanh_eq_sinh_div_cosh, div_lt_one (Real.cosh_pos x)]
  exact Real.sinh_lt_cosh x

theorem neg_one_lt_tanh_real (x : ℝ) : -1 < Real.tanh x := by
  have h := tanh_lt_one_real (-x)
  rw [Real.tanh_neg] at h
  linarith

theorem sigmoid_mul_tanh_bounds (x y : ℝ) :
    -1 < sigmoid x * Real.tanh y ∧ sigmoid x * Real.tanh y < 1 := by
  have hs0 := sigmoid_pos x
  have hs1 := sigmoid_lt_one x
  have ht0 := neg_one_lt_tanh_real y
  have ht1 := tanh_lt_one_real y
  constructor
  · nlinarith
  · nlinarith

/-- Claim C5: every element of the new hidden state returned by
`LSTMCell.forward` lies strictly between -1 and 1: it is the product of a
sigmoid output gate, which lies in (0, 1), with the tanh of the new memory,
which lies in (-1, 1). -/
theorem lstm_cell_hidden_in_open_unit_ball {I H B : ℕ} (cell : LSTMCell I H)
    (input : Fin B → Fin I → ℝ)
    (state : (Fin B → Fin H → ℝ) × (Fin B → Fin H → ℝ))
    (b : Fin B) (j : Fin H) :
    -1 < (cell.forward input state).1 b j ∧
    (cell.forward input state).1 b j < 1 := by
  dsimp only [LSTMCell.forward]
  exact sigmoid_mul_tanh_bounds _ _

/-! ### `LSTMLayer` and `ReverseLSTMLayer` (lstm.py lines 223-275) -/

/-- `LSTMLayer.forward` (lstm.py lines 229-256): unbind the input along
time, feed each step to the cell threading the state, collect the per-step
outputs in order, and return the stacked outputs with the final state.  The
cell is any step function from an input and a state to an output and a new
state. -/
def lstmLayerForward {A S O : Type*} (cell : A → S → O × S) :
    List A → S → List O × S
  | [], state => ([], state)
  | x :: xs, state =>
    let os := cell x state
    let rest := lstmLayerForward cell xs os.2
    (os.1 :: rest.1, rest.2)

/-- The loop inside `ReverseLSTMLayer.forward` (lstm.py lines 272-274),
textually the same per-step loop as in `LSTMLayer.forward`. -/
def reverseLayerLoop {A S O : Type*} (cell : A → S → O × S) :
    List A → S → List O × S
  | [], state => ([], state)
  | x :: xs, state =>
    let os := cell x state
    let rest := reverseLayerLoop cell xs os.2
    (os.1 :: rest.1, rest.2)

/-- `ReverseLSTMLayer.forward` (lstm.py lines 266-275): reverse the unbound
inputs, run the loop, and reverse the collected outputs before stacking. -/
def reverseLSTMLayerForward {A S O : Type*} (cell : A → S → O × S)
    (input : List A) (state : S) : List O × S :=
  let r := reverseLayerLoop cell input.reverse state
  (r.1.reverse, r.2)

theorem reverseLayerLoop_eq_lstmLayerForward {A S O : Type*}
    (cell : A → S → O × S) (input : List A) (state : S) :
    reverseLayerLoop cell input state = lstmLayerForward cell input state := by
  induction input generalizing state with
  | nil => rfl
  | cons x xs ih => simp [reverseLayerLoop, lstmLayerForward, ih]

/-- Claim C6: the reverse runner returns its per-step outputs in natural
time order: the outputs of `ReverseLSTMLayer.forward` on `input` equal the
reverse of the outputs of `LSTMLayer.forward` on the reversed input, for the
same cell and the same initial state. -/
theorem reverse_layer_outputs_natural_order {A S O : Type*}
    (cell : A → S → O × S) (input : List A) (state : S) :
    (reverseLSTMLayerForward cell input state).1 =
      ((lstmLayerForward cell input.reverse state).1).reverse := by
  simp [reverseLSTMLayerForward, reverseLayerLoop_eq_lstmLayerForward]

/-! ### `KLDivLoss` (model.py lines 229-236) -/

/-- `KLDivLoss.forward` (model.py lines 234-236):
`-0.5 * torch.mean(1 + sigma_hat - mu ** 2 - torch.exp(sigma_hat))`, with
`sigma_hat` and `mu` of shape `[batch_size, d_z]`. -/
noncomputable def klDivLoss (sigma_hat mu : List (List ℝ)) : ℝ :=
  -0.5 * tmean
    (List.zipWith (List.zipWith (fun s m => 1 + s - m ^ 2 - Real.exp s))
      sigma_hat mu).flatten

theorem list_sum_nonpos {l : List ℝ} (h : ∀ x ∈ l, x ≤ 0) : l.sum ≤ 0 := by
  induction l with
  | nil => simp
  | cons a l ih =>
    have ha := h a (by simp)
    have hl := ih fun x hx => h x (by simp [hx])
    simp only [List.sum_cons]
    linarith

theorem list_sum_eq_zero_iff_of_nonpos {l : List ℝ} (h : ∀ x ∈ l, x ≤ 0) :
    l.sum = 0 ↔ ∀ x ∈ l, x = 0 := by
  induction l with
  | nil => simp
  | cons a l ih =>
    have ha := h a (by simp)
    have hl : l.sum ≤ 0 :=
      list_sum_nonpos fun x hx => h x (List.mem_cons_of_mem a hx)
    have ihl := ih fun x hx => h x (List.mem_cons_of_mem a hx)
    simp only [List.sum_cons, List.mem_cons]
    constructor
    · intro hsum
      have ha0 : a = 0 := by linarith
      have hl0 : l.sum = 0 := by linarith
      intro x hx
      rcases hx with rfl | hx
      · exact ha0
      · exact ihl.mp hl0 x hx
    · intro hall
      have ha0 : a = 0 := hall a (Or.inl rfl)
      have hl0 : l.sum = 0 := ihl.mpr fun x hx => hall x (Or.inr hx)
      rw [ha0, hl0, add_zero]

theorem flatten_length_congr {α β : Type*} :
    ∀ (a : List (List α)) (b : List (List β)), a.length = b.length →
    (∀ p ∈ a.zip b, p.1.length = p.2.length) →
    a.flatten.length = b.flatten.length := by
  intro a
  induction a with
  | nil =>
    intro b hlen _
    cases b with
    | nil => rfl
    | cons rb b => simp at hlen
  | cons r a ih =>
    intro b hlen hrow
    cases b with
    | nil => simp at hlen
    | cons rb b =>
      have h1 : r.length = rb.length := hrow (r, rb) (by simp)
      have h2 := ih b (by simpa using hlen)
        (fun p hp => hrow p (by simp [List.zip_cons_cons, hp]))
      simp only [List.flatten_cons, List.length_append, h1, h2]

theorem flatten_zipWith {α β γ : Type*} (f : α → β → γ) :
    ∀ (a : List (List α)) (b : List (List β)), a.length = b.length →
    (∀ p ∈ a.zip b, p.1.length = p.2.length) →
    (List.zipWith (List.zipWith f) a b).flatten =
      List.zipWith f a.flatten b.flatten := by
  intro a
  induction a with
  | nil =>
    intro b _ _
    simp
  | cons r a ih =>
    intro b hlen hrow
    cases b with
    | nil => simp
    | cons rb b =>
      have h1 : r.length = rb.length := hrow (r, rb) (by simp)
      have h2 := ih b (by simpa using hlen)
        (fun p hp => hrow p (by simp [List.zip_cons_cons, hp]))
      simp only [List.zipWith_cons_cons, List.flatten_cons, h2,
        List.zipWith_append f r a.flatten rb b.flatten h1]

theorem kl_term_nonpos (s m : ℝ) : 1 + s - m ^ 2 - Real.exp s ≤ 0 := by
  have h := Real.add_one_le_exp s
  nlinarith [sq_nonneg m]

theorem kl_term_eq_zero_iff (s m : ℝ) :
    1 + s - m ^ 2 - Real.exp s = 0 ↔ s = 0 ∧ m = 0 := by
  constructor
  · intro h
    have hle := Real.add_one_le_exp s
    have hm : m ^ 2 = 0 := by nlinarith [sq_nonneg m]
    have hs : s = 0 := by
      by_contra hs
      have := Real.add_one_lt_exp hs
      nlinarith
    exact ⟨hs, pow_eq_zero_iff two_ne_zero |>.mp hm⟩
  · rintro ⟨rfl, rfl⟩
    simp [Real.exp_zero]

theorem kl_zipWith_zero_iff :
    ∀ (a b : List ℝ), a.length = b.length →
    ((∀ x ∈ List.zipWith (fun s m => 1 + s - m ^ 2 - Real.exp s) a b, x = 0) ↔
      (∀ s ∈ a, s = 0) ∧ (∀ m ∈ b, m = 0)) := by
  intro a
  induction a with
  | nil =>
    intro b hlen
    cases b with
    | nil => simp
    | cons rb b => simp at hlen
  | cons s a ih =>
    intro b hlen
    cases b with
    | nil => simp at hlen
    | cons m b =>
      have ihb := ih b (by simpa using hlen)
      simp only [List.zipWith_cons_cons, List.mem_cons, forall_eq_or_imp]
      rw [kl_term_eq_zero_iff]
      constructor
      · rintro ⟨⟨hs, hm⟩, hrest⟩
        obtain ⟨ha, hb⟩ := ihb.mp hrest
        exact ⟨⟨hs, ha⟩, ⟨hm, hb⟩⟩
      · rintro ⟨⟨hs, ha⟩, ⟨hm, hb⟩⟩
        exact ⟨⟨hs, hm⟩, ihb.mpr ⟨ha, hb⟩⟩

/-- Claim C8: for same-shaped, nonempty `sigma_hat` and `mu`, the value of
`KLDivLoss.forward` is nonnegative, and it is zero exactly when every entry
of `mu` is zero and every entry of `sigma_hat` is zero (since
`exp s >= 1 + s` with equality only at `s = 0`, and `m ^ 2 >= 0` with
equality only at `m = 0`). -/
theorem kl_div_loss_nonneg (sigma_hat mu : List (List ℝ))
    (hlen : sigma_hat.length = mu.length)
    (hrow : ∀ p ∈ sigma_hat.zip mu, p.1.length = p.2.length)
    (hne : sigma_hat.flatten ≠ []) :
    0 ≤ klDivLoss sigma_hat mu ∧
    (klDivLoss sigma_hat mu = 0 ↔
      (∀ r ∈ mu, ∀ x ∈ r, x = 0) ∧ (∀ r ∈ sigma_hat, ∀ x ∈ r, x = 0)) := by
  have hflat := flatten_zipWith (fun s m => 1 + s - m ^ 2 - Real.exp s)
    sigma_hat mu hlen hrow
  have hflen := flatten_length_congr sigma_hat mu hlen hrow
  set L : List ℝ :=
    List.zipWith (fun s m => 1 + s - m ^ 2 - Real.exp s)
      sigma_hat.flatten mu.flatten with hL
  have hLlen : L.length = sigma_hat.flatten.length := by
    simp [hL, List.length_zipWith, hflen]
  have hLpos : 0 < (L.length : ℝ) := by
    have : sigma_hat.flatten.length ≠ 0 := by
      intro h
      exact hne (List.length_eq_zero.mp h)
    rw [hLlen]
    exact_mod_cast Nat.pos_of_ne_zero this
  have hLnonpos : ∀ x ∈ L, x ≤ 0 := by
    intro x hx
    obtain ⟨s, _, m, _, rfl⟩ := mem_zipWith_ex hx
    exact kl_term_nonpos s m
  have hsum : L.sum ≤ 0 := list_sum_nonpos hLnonpos
  have hkl : klDivLoss sigma_hat mu = -0.5 * (L.sum / L.length) := by
    rw [klDivLoss, tmean, hflat]
  constructor
  · rw [hkl]
    have : L.sum / (L.length : ℝ) ≤ 0 :=
      div_nonpos_of_nonpos_of_nonneg hsum hLpos.le
    nlinarith
  · rw [hkl]
    have hhalf : (-0.5 : ℝ) ≠ 0 := by norm_num
    rw [mul_eq_zero]
    have hiff1 : L.sum / (L.length : ℝ) = 0 ↔ L.sum = 0 := by
      rw [div_eq_zero_iff]
      have : (L.length : ℝ) ≠ 0 := ne_of_gt hLpos
      simp [this]
    have hiff2 := list_sum_eq_zero_iff_of_nonpos hLnonpos
    have hiff3 := kl_zipWith_zero_iff sigma_hat.flatten mu.flatten hflen
    rw [← hL] at hiff3
    constructor
    · intro h
      rcases h with h | h
      · exact absurd h hhalf
      · have hall := hiff3.mp (hiff2.mp (hiff1.mp h))
        refine ⟨?_, ?_⟩
        · intro r hr x hx
          exact hall.2 x (List.mem_flatten.mpr ⟨r, hr, hx⟩)
        · intro r hr x hx
          exact hall.1 x (List.mem_flatten.mpr ⟨r, hr, hx⟩)
    · intro h
      right
      apply hiff1.mpr
      apply hiff2.mpr
      apply hiff3.mpr
      constructor
      · intro s hs
        obtain ⟨r, hr, hsr⟩ := List.mem_flatten.mp hs
        exact h.2 r hr s hsr
      · intro m hm
        obtain ⟨r, hr, hmr⟩ := List.mem_flatten.mp hm
        exact h.1 r hr m hmr

/-- Witness for claim C8 at `sigma_hat = [[0]]`, `mu = [[0]]`. -/
theorem kl_div_loss_nonneg_witness :
    0 ≤ klDivLoss [[0]] [[0]] ∧
    (klDivLoss [[0]] [[0]] = 0 ↔
      (∀ r ∈ ([[0]] : List (List ℝ)), ∀ x ∈ r, x = 0) ∧
      (∀ r ∈ ([[0]] : List (List ℝ)), ∀ x ∈ r, x = 0)) :=
  kl_div_loss_nonneg [[0]] [[0]] rfl (by simp) (by simp)

end SketchRNN
